import Mathlib

/-!
Verification of the slot allocation, rotation and retention logic of the
save-versions-redirector scripts (`src/__init__.py` and
`src/save_versions_redirector.py`).

Modelling conventions:
* File names and path fragments are `List Char` (Python strings).
* A family's slot state is a map `Nat → Option SlotFile` — the SlotStore view
  `(family, slot index) ↦ file`; `none` means the slot file does not exist.
* Timestamps (`time.time()`, `os.path.getmtime`) are integers (order-complete for every comparison the code makes); configured
  threshold minutes are naturals (Blender `IntProperty` with `min=0`).
* A Python dict is embedded as a lookup function `Nat → Option Nat`;
  `dict.get(k, 0)` becomes `(t k).getD 0`.
* `shutil.move src dst` on the slot map sets `dst` to `src`'s file and clears
  `src`; `os.remove` clears an entry.
-/

/-- A slot file on disk: its mtime (the sole age signal) and abstract content. -/
structure SlotFile where
  mtime : ℤ
  data : Nat
deriving DecidableEq

/-- Occupancy/mtime state of one backup family: slot index to file. -/
def SlotMap : Type := Nat → Option SlotFile

/-- The four configured per-slot threshold minutes
(`prev1_minutes` .. `prev4_minutes`, each a non-negative int). -/
structure Prefs where
  prev1 : Nat
  prev2 : Nat
  prev3 : Nat
  prev4 : Nat
deriving DecidableEq

/-! String literals of the naming convention, as explicit character lists. -/

/-- Characters of the label `latest` (slot 1). -/
def latestStr : List Char := ['l', 'a', 't', 'e', 's', 't']

/-- Characters of the label stem `prev` (slots 2 and above). -/
def prevStr : List Char := ['p', 'r', 'e', 'v']

/-- Characters of the file extension `.blend`. -/
def extStr : List Char := ['.', 'b', 'l', 'e', 'n', 'd']

/-- The underscore separating family id and slot label. -/
def usStr : List Char := ['_']

/-- The path separator used by the model of `os.path.join`. -/
def sepStr : List Char := ['/']

/-- Decimal digit character for a value below ten (codepoint 48 + d). -/
def digitChar (d : Nat) : Char := Char.ofNat (48 + d)

/-- Decimal representation of a natural number, as Python `str`/f-string
interpolation produces for a non-negative int. -/
def natDigits (n : Nat) : List Char :=
  if _h : n < 10 then [digitChar n]
  else natDigits (n / 10) ++ [digitChar (n % 10)]
decreasing_by exact Nat.div_lt_self (by omega) (by omega)

/-- Value of a decimal digit string, as Python `int` computes it. -/
def digitsToNat (l : List Char) : Nat :=
  l.foldl (fun a c => a * 10 + (c.toNat - 48)) 0

/-- Strip the literal pattern `pat` from the front of `s`
(the way a `re.escape`d literal matches), returning the remainder. -/
def stripLead (pat s : List Char) : Option (List Char) :=
  match pat, s with
  | [], s => some s
  | _ :: _, [] => none
  | p :: ps, c :: cs => if c = p then stripLead ps cs else none

/-- Maximal leading run of decimal digits and the remainder
(the way the greedy regex `\d+` splits a string). -/
def spanDigits (s : List Char) : List Char × List Char :=
  match s with
  | [] => ([], [])
  | c :: cs =>
    if c.isDigit then
      let (d, r) := spanDigits cs
      (c :: d, r)
    else ([], c :: cs)

/-! Slot-path naming (`_ver` in both files, identical text). -/

/-- Slot label: `latest` for slot 1, `prev{v-1}` otherwise. -/
def slotLabel (v : Nat) : List Char :=
  if v = 1 then latestStr else prevStr ++ natDigits (v - 1)

/-- Base name of a slot file: `{prefix}_{label}.blend`. -/
def verName (pfx : List Char) (v : Nat) : List Char :=
  pfx ++ usStr ++ (slotLabel v ++ extStr)

/-- The `_ver` helper of `src/__init__.py`:
`os.path.join(root, f"{prefix}_{label}.blend")`. -/
def _ver (root pfx : List Char) (v : Nat) : List Char :=
  root ++ sepStr ++ verName pfx v

/-- The `_ver` helper of `src/save_versions_redirector.py` (same text). -/
def ver_red (root pfx : List Char) (v : Nat) : List Char :=
  root ++ sepStr ++ verName pfx v

/-! Threshold tables (`_thresholds`). The two files build different dicts. -/

/-- The list `[0, prev1, prev2, prev3, prev4]` of configured minutes. -/
def baseVals (p : Prefs) : List Nat := [0, p.prev1, p.prev2, p.prev3, p.prev4]

/-- The `_thresholds` dict of `src/__init__.py`, as a lookup function.
The comprehension `{i + 1: m * 60 for i, m in enumerate(base) if i + 1 <= max_v}`
contributes keys `1..min 5 max_v`; when `prev4 > 0` the extension loop adds the
disjoint keys `6..max_v` with value `(prev4 + prev4 * (v - 5)) * 60`. -/
def _thresholds (p : Prefs) (max_v : Nat) : Nat → Option Nat := fun v =>
  if 1 ≤ v ∧ v ≤ 5 ∧ v ≤ max_v then some ((baseVals p).getD (v - 1) 0 * 60)
  else if 0 < p.prev4 ∧ 6 ≤ v ∧ v ≤ max_v then
    some ((p.prev4 + p.prev4 * (v - 5)) * 60)
  else none

/-- The `_thresholds` dict of `src/save_versions_redirector.py`: the literal
dict always holds keys `1..5` (not bounded by `max_v`); the extension loop is
the same as in the other file. -/
def thresholds_red (p : Prefs) (max_v : Nat) : Nat → Option Nat := fun v =>
  if 1 ≤ v ∧ v ≤ 5 then some ((baseVals p).getD (v - 1) 0 * 60)
  else if 0 < p.prev4 ∧ 6 ≤ v ∧ v ≤ max_v then
    some ((p.prev4 + p.prev4 * (v - 5)) * 60)
  else none

/-- Effective threshold seen by the allocator: `thresholds.get(v, 0)`. -/
def effThr (thr : Nat → Option Nat) (v : Nat) : Nat := (thr v).getD 0

/-! Slot allocation (`_find_slot`, identical text in both files). -/

/-- Body of the `for v in range(2, max_v + 1)` scan of `_find_slot`:
a missing slot is taken without rotation; an existing slot whose threshold is 0
or whose age `now - mtime` has reached its threshold is taken with rotation;
otherwise the scan continues. -/
def findLoop (slots : SlotMap) (thr : Nat → Option Nat) (now : ℤ) :
    List Nat → Option Nat × Bool
  | [] => (none, false)
  | v :: rest =>
    match slots v with
    | none => (some v, false)
    | some f =>
      let th := effThr thr v
      if th = 0 ∨ (th : ℤ) ≤ now - f.mtime then (some v, true)
      else findLoop slots thr now rest

/-- The index list `range(2, max_v + 1)` scanned by `_find_slot`. -/
def scanSlots (max_v : Nat) : List Nat := List.range' 2 (max_v - 1)

/-- `_find_slot` of `src/__init__.py`: first-fit scan of slots `2..max_v`,
returning `(slot, need_rotate)` with `none` for "no slot available". -/
def _find_slot (slots : SlotMap) (max_v : Nat) (thr : Nat → Option Nat)
    (now : ℤ) : Option Nat × Bool :=
  findLoop slots thr now (scanSlots max_v)

/-- `_find_slot` of `src/save_versions_redirector.py` (same text). -/
def find_slot_red (slots : SlotMap) (max_v : Nat) (thr : Nat → Option Nat)
    (now : ℤ) : Option Nat × Bool :=
  findLoop slots thr now (scanSlots max_v)

/-- Eligibility of slot `v` in the scan: exactly the disjunction of the two
conditions under which `_find_slot` stops at `v`. -/
def elig (slots : SlotMap) (thr : Nat → Option Nat) (now : ℤ) (v : Nat) :
    Prop :=
  slots v = none ∨ effThr thr v = 0 ∨
    ∃ f, slots v = some f ∧ (effThr thr v : ℤ) ≤ now - f.mtime

/-! Rotation (`_rotate`, identical text in both files). -/

/-- One iteration of the rotation loop at index `v`:
`if os.path.exists(src): shutil.move(src, dst)` with `dst` the slot above. -/
def moveStep (fs : SlotMap) (v : Nat) : SlotMap :=
  match fs v with
  | none => fs
  | some c => fun k => if k = v + 1 then some c else if k = v then none else fs k

/-- Removal of one slot's file from the map (`os.remove`). -/
def clearSlot (fs : SlotMap) (m : Nat) : SlotMap :=
  fun k => if k = m then none else fs k

/-- The descending index list `range(max_v - 1, start - 1, -1)`. -/
def rotRange (max_v start : Nat) : List Nat :=
  (List.range' start (max_v - start)).reverse

/-- `_rotate` of `src/__init__.py`: evict the overflow slot `max_v` if present,
then shift each occupied slot one position up, from `max_v - 1` down to
`start`. -/
def _rotate (fs : SlotMap) (max_v start : Nat) : SlotMap :=
  let fs1 := if (fs max_v).isSome then clearSlot fs max_v else fs
  (rotRange max_v start).foldl moveStep fs1

/-- `_rotate` of `src/save_versions_redirector.py` (same text). -/
def rotate_red (fs : SlotMap) (max_v start : Nat) : SlotMap :=
  let fs1 := if (fs max_v).isSome then clearSlot fs max_v else fs
  (rotRange max_v start).foldl moveStep fs1

/-- Rotation loop over a descending index block of given start and length,
used to reason about `_rotate` by induction on the block length. -/
def rotFold (g : SlotMap) (start n : Nat) : SlotMap :=
  (List.range' start n).reverse.foldl moveStep g

/-! Retention purge: the regex scan of the handler's purge loop. -/

/-- The purge loop's pattern test and index computation on one directory entry.
`re.match` with pattern `{escaped prefix}_(latest|prev(\d+))\.blend` anchors at
the start of the name only (no end anchor), so any trailing characters are
accepted. `latest` yields index 1, `prev{N}` yields `N + 1`. The greedy `\d+`
together with the following literal `.` (not a digit) is equivalent to taking
the maximal digit run. -/
def matchSlotName (pfx f : List Char) : Option Nat :=
  match stripLead (pfx ++ usStr) f with
  | none => none
  | some rest =>
    match stripLead (latestStr ++ extStr) rest with
    | some _ => some 1
    | none =>
      match stripLead prevStr rest with
      | none => none
      | some r2 =>
        let (d, r3) := spanDigits r2
        if d = [] then none
        else
          match stripLead extStr r3 with
          | some _ => some (digitsToNat d + 1)
          | none => none

/-- Exact-name variant of the pattern: succeeds only when the whole name is
consumed. `exactSlotIndex pfx f = none` certifies that `f` is not a slot name
of the family (see `exactSlotIndex_verName`). -/
def exactSlotIndex (pfx f : List Char) : Option Nat :=
  match stripLead (pfx ++ usStr) f with
  | none => none
  | some rest =>
    if rest = latestStr ++ extStr then some 1
    else
      match stripLead prevStr rest with
      | none => none
      | some r2 =>
        let (d, r3) := spanDigits r2
        if d = [] then none
        else if r3 = extStr then some (digitsToNat d + 1)
        else none

/-- Keep-test of the purge loop: a directory entry is removed exactly when the
pattern matches it and the computed index exceeds `max_v`. -/
def purgeKeep (pfx : List Char) (max_v : Nat) (f : List Char) : Bool :=
  match matchSlotName pfx f with
  | none => true
  | some idx => !(decide (max_v < idx))

/-- Directory listing after the purge loop, assuming every removal succeeds. -/
def purge (pfx : List Char) (max_v : Nat) (files : List (List Char)) :
    List (List Char) :=
  files.filter (purgeKeep pfx max_v)

/-! The synchronous save handler (`save_versions_post`), pure view. -/

/-- Inputs of one save event, as the handler reads them: the family's slot
state, the root directory listing, `max(save_version, 1)`, the preferences and
`time.time()`. -/
structure EventInput where
  slots : SlotMap
  listing : List (List Char)
  max_v : Nat
  prefs : Prefs
  now : ℤ

/-- Effects of the synchronous path of one save event: destination paths of
the issued `_copy_async` calls in order, the slot state after the (synchronous)
rotation, and the directory listing after the purge loop. -/
structure EventOutput where
  copies : List (List Char)
  slotsAfter : SlotMap
  listingAfter : List (List Char)

/-- Core of `save_versions_post` once the handler is past its early returns:
allocate via `_find_slot`, rotate if required, issue the historical-slot copy,
always issue the slot-1 copy, then run the purge loop. -/
def save_versions_post_core (root pfx : List Char) (inp : EventInput) :
    EventOutput :=
  let thr := _thresholds inp.prefs inp.max_v
  match _find_slot inp.slots inp.max_v thr inp.now with
  | (some v, need_rot) =>
    { copies := [_ver root pfx v, _ver root pfx 1]
      slotsAfter := if need_rot then _rotate inp.slots inp.max_v v else inp.slots
      listingAfter := purge pfx inp.max_v inp.listing }
  | (none, _) =>
    { copies := [_ver root pfx 1]
      slotsAfter := inp.slots
      listingAfter := purge pfx inp.max_v inp.listing }

/-- `save_versions_post` with its early returns: no action when
`bpy.data.filepath` is empty or the transient backup `fp + "1"` is missing. -/
def save_versions_post (fpSet srcBakExists : Bool) (root pfx : List Char)
    (inp : EventInput) : Option EventOutput :=
  if fpSet = false then none
  else if srcBakExists = false then none
  else some (save_versions_post_core root pfx inp)

/-! Failure-instrumented view of the synchronous path, for the error-handling
claims. A flag `true` means the corresponding OS call raises. Only the purge
loop's per-file `os.remove` sits inside a `try/except` in the handler; the
final source-backup removal is a timer registration (`_safe_remove`) in
`src/__init__.py` and a `try/except: pass` in `src/save_versions_redirector.py`,
so neither raises on the synchronous path. `os.makedirs`, `os.path.getmtime`
(reached only when the slot's threshold is non-zero, because Python's `or`
short-circuits), `_rotate`'s `os.remove`/`shutil.move` and `os.listdir` are
not guarded. -/
structure FailSpec where
  mkdirFail : Bool
  mtimeFail : Nat → Bool
  rotRemoveFail : Bool
  rotMoveFail : Nat → Bool
  listFail : Bool
  purgeRemoveFail : List Char → Bool
  srcRemoveFail : Bool

/-- `_find_slot`'s scan with a fallible `os.path.getmtime`. -/
def findLoopExc (slots : SlotMap) (thr : Nat → Option Nat) (now : ℤ)
    (mtimeFail : Nat → Bool) : List Nat → Except Unit (Option Nat × Bool)
  | [] => .ok (none, false)
  | v :: rest =>
    match slots v with
    | none => .ok (some v, false)
    | some f =>
      let th := effThr thr v
      if th = 0 then .ok (some v, true)
      else if mtimeFail v then .error ()
      else if (th : ℤ) ≤ now - f.mtime then .ok (some v, true)
      else findLoopExc slots thr now mtimeFail rest

/-- One rotation-loop iteration with a fallible `shutil.move`. -/
def moveStepExc (fail : Nat → Bool) (acc : Except Unit SlotMap) (v : Nat) :
    Except Unit SlotMap :=
  match acc with
  | .error e => .error e
  | .ok fs =>
    match fs v with
    | none => .ok fs
    | some c =>
      if fail v then .error ()
      else .ok fun k => if k = v + 1 then some c else if k = v then none else fs k

/-- `_rotate` with fallible `os.remove`/`shutil.move`. -/
def rotateExc (fl : FailSpec) (fs : SlotMap) (max_v start : Nat) :
    Except Unit SlotMap :=
  if (fs max_v).isSome then
    if fl.rotRemoveFail then .error ()
    else (rotRange max_v start).foldl (moveStepExc fl.rotMoveFail)
      (.ok (clearSlot fs max_v))
  else (rotRange max_v start).foldl (moveStepExc fl.rotMoveFail) (.ok fs)

/-- Purge loop with fallible per-file `os.remove`: each removal failure is
caught by the surrounding `try/except`, so the entry merely survives. -/
def purgeFallible (fl : FailSpec) (pfx : List Char) (max_v : Nat)
    (files : List (List Char)) : List (List Char) :=
  files.filter (fun f => purgeKeep pfx max_v f || fl.purgeRemoveFail f)

/-- The synchronous path of `save_versions_post` with failure injection,
sequenced as in the source: early returns, `os.makedirs`, `_find_slot`,
`_rotate` when needed, the two `_copy_async` registrations (thread starts
never raise here), `os.listdir` plus the purge loop, then the source-backup
cleanup (never raises synchronously in either variant). -/
def save_versions_post_exc (fl : FailSpec) (fpSet srcBakExists : Bool)
    (root pfx : List Char) (inp : EventInput) :
    Except Unit (Option EventOutput) :=
  if fpSet = false then .ok none
  else if srcBakExists = false then .ok none
  else if fl.mkdirFail then .error ()
  else
    let thr := _thresholds inp.prefs inp.max_v
    match findLoopExc inp.slots thr inp.now fl.mtimeFail (scanSlots inp.max_v) with
    | .error e => .error e
    | .ok (slotRes, need_rot) =>
      match slotRes with
      | some v =>
        match (if need_rot then rotateExc fl inp.slots inp.max_v v
               else .ok inp.slots) with
        | .error e => .error e
        | .ok slots1 =>
          if fl.listFail then .error ()
          else .ok (some
            { copies := [_ver root pfx v, _ver root pfx 1]
              slotsAfter := slots1
              listingAfter := purgeFallible fl pfx inp.max_v inp.listing })
      | none =>
        if fl.listFail then .error ()
        else .ok (some
          { copies := [_ver root pfx 1]
            slotsAfter := inp.slots
            listingAfter := purgeFallible fl pfx inp.max_v inp.listing })

/-- Value-level test that an instrumented run completed without raising. -/
def isOkE (r : Except Unit (Option EventOutput)) : Bool :=
  match r with
  | .ok _ => true
  | .error _ => false

/-! Source-backup cleanup (`_safe_remove` / the `try: os.remove` tail). -/

/-- One removal attempt, keyed by the remaining retry budget; `true` means
`os.remove` raises on that attempt. -/
def removeOnce (failAt : Nat → Bool) (k : Nat) : Except Unit Unit :=
  if failAt k then .error () else .ok ()

/-- Timer delays preceding each removal attempt of `_safe_remove`'s `attempt`
chain: every registration uses `first_interval = delay`; a failed attempt with
budget left re-registers, a failure with budget 0 is dropped by the bare
`except`. -/
def safe_remove_sched (failAt : Nat → Bool) (delay : ℤ) : Nat → List ℤ
  | 0 => [delay]
  | r + 1 =>
    match removeOnce failAt (r + 1) with
    | .ok _ => [delay]
    | .error _ => delay :: safe_remove_sched failAt delay r

/-- `_safe_remove` of `src/__init__.py` with its defaults
(`retries = 5`, `delay = 2.0`), summarised by its attempt schedule. -/
def _safe_remove (failAt : Nat → Bool) : List ℤ :=
  safe_remove_sched failAt 2 5

/-- A raw `os.remove` call that may raise. -/
def removeRaw (fail : Bool) : Except Unit Unit :=
  if fail then .error () else .ok ()

/-- The source-backup cleanup of `src/save_versions_redirector.py`:
`try: os.remove(src_bak) except Exception: pass`. -/
def src_remove_red (fail : Bool) : Except Unit Unit :=
  match removeRaw fail with
  | .ok _ => .ok ()
  | .error _ => .ok ()

/-! Concrete instances used by witnesses and counterexamples. -/

/-- Example family id. -/
def pfxEx : List Char := ['p']

/-- Example root directory. -/
def rootEx : List Char := ['r']

/-- An old slot file (mtime 0). -/
def fileA : SlotFile := ⟨0, 20⟩

/-- A fresh slot file (mtime 90). -/
def fileB : SlotFile := ⟨90, 30⟩

/-- Slots 2 (old) and 3 (fresh) occupied, everything else empty. -/
def slotsEx : SlotMap := fun v =>
  if v = 2 then some fileA else if v = 3 then some fileB else none

/-- Preferences with `prev1 = 0` minutes (slot 2 always eligible) and
`prev2 = 60` minutes (slot 3 threshold 3600 seconds). -/
def prefsEx : Prefs := ⟨0, 60, 1, 1⟩

/-- Event at time 100 with `MaxSlots = 3` over `slotsEx`: slot 3 is within its
threshold (age 10 < 3600) yet rotation will evict it. -/
def inpEx : EventInput := ⟨slotsEx, [], 3, prefsEx, 100⟩

/-- Only slot 2 occupied, `MaxSlots = 2`: rotation must evict slot 2 itself. -/
def inpOvf : EventInput :=
  ⟨fun v => if v = 2 then some fileA else none, [], 2, prefsEx, 100⟩

/-- Failure pattern where only `_rotate`'s overflow `os.remove` raises. -/
def failRot : FailSpec :=
  ⟨false, fun _ => false, true, fun _ => false, false, fun _ => false, false⟩

/-- Failure pattern where every guarded call fails and every unguarded call
succeeds: both purge removals and the source cleanup raise. -/
def failGuarded : FailSpec :=
  ⟨false, fun _ => false, false, fun _ => false, false, fun _ => true, true⟩

/-- A name that merely begins with a slot-file name of family `p`:
`p_prev1.blendX`. It is not a slot file, but the unanchored pattern accepts
it with index 2. -/
def badName : List Char :=
  ['p', '_', 'p', 'r', 'e', 'v', '1', '.', 'b', 'l', 'e', 'n', 'd', 'X']

/-- Slot state with every slot empty. -/
def slotsEmpty : SlotMap := fun _ => none

/-- Threshold table with no entries (every lookup defaults to 0). -/
def thrEmpty : Nat → Option Nat := fun _ => none

/-! Helper lemmas on the string machinery. -/

/-- Stripping a literal from a string that starts with it leaves the tail. -/
theorem stripLead_append (p s : List Char) : stripLead p (p ++ s) = some s := by
  induction p with
  | nil => simp [stripLead]
  | cons c cs ih => simp [stripLead, ih]

/-- Stripping a literal from itself leaves the empty remainder. -/
theorem stripLead_self (p : List Char) : stripLead p p = some [] := by
  have h := stripLead_append p []
  simpa using h

/-- Decimal digit characters have the expected codepoint. -/
theorem digitChar_toNat (d : Nat) (h : d < 10) : (digitChar d).toNat = 48 + d := by
  interval_cases d <;> decide

/-- Decimal digit characters satisfy `Char.isDigit`. -/
theorem digitChar_isDigit (d : Nat) (h : d < 10) :
    (digitChar d).isDigit = true := by
  interval_cases d <;> decide

/-- Reading back the decimal representation recovers the number
(`int(str(n)) = n`). -/
theorem digitsToNat_natDigits (n : Nat) : digitsToNat (natDigits n) = n := by
  induction n using Nat.strong_induction_on with
  | _ n ih =>
    rw [natDigits]
    split
    · rename_i h
      simp [digitsToNat, digitChar_toNat n h]
    · rename_i h
      have hlt : n / 10 < n := Nat.div_lt_self (by omega) (by omega)
      have h1 := ih (n / 10) hlt
      rw [digitsToNat, List.foldl_append]
      rw [digitsToNat] at h1
      simp [h1, digitChar_toNat (n % 10) (Nat.mod_lt _ (by omega))]
      omega

/-- Every character of a decimal representation is a digit. -/
theorem natDigits_digit (n : Nat) : ∀ c ∈ natDigits n, c.isDigit = true := by
  induction n using Nat.strong_induction_on with
  | _ n ih =>
    rw [natDigits]
    split
    · rename_i h
      intro c hc
      simp at hc
      subst hc
      exact digitChar_isDigit n h
    · rename_i h
      intro c hc
      simp at hc
      rcases hc with hc | hc
      · exact ih (n / 10) (Nat.div_lt_self (by omega) (by omega)) c hc
      · subst hc
        exact digitChar_isDigit (n % 10) (Nat.mod_lt _ (by omega))

/-- A decimal representation is never empty. -/
theorem natDigits_ne_nil (n : Nat) : natDigits n ≠ [] := by
  rw [natDigits]
  split <;> simp

/-- The greedy digit scan splits a digit run followed by a non-digit
remainder exactly at the boundary. -/
theorem spanDigits_append (d r : List Char) (hd : ∀ c ∈ d, c.isDigit = true)
    (hr : ∀ c, r.head? = some c → c.isDigit = false) :
    spanDigits (d ++ r) = (d, r) := by
  induction d with
  | nil =>
    cases r with
    | nil => simp [spanDigits]
    | cons c cs => simp [spanDigits, hr c rfl]
  | cons c cs ih =>
    have hc : c.isDigit = true := hd c (by simp)
    have ih' := ih (fun x hx => hd x (by simp [hx]))
    simp [spanDigits, hc, ih']

/-- Digit run of a slot name followed by the extension splits at the dot. -/
theorem spanDigits_natDigits_ext (n : Nat) :
    spanDigits (natDigits n ++ extStr) = (natDigits n, extStr) := by
  refine spanDigits_append _ _ (natDigits_digit n) ?_
  intro c hc
  simp [extStr] at hc
  subst hc
  decide

/-- The purge pattern accepts every generated slot name and recovers its
index: `latest` gives 1 and `prev{v-1}` gives `v`. -/
theorem matchSlotName_ver (pfx : List Char) (v : Nat) (h : 1 ≤ v) :
    matchSlotName pfx (verName pfx v) = some v := by
  have hshape : verName pfx v = (pfx ++ usStr) ++ (slotLabel v ++ extStr) := by
    simp [verName, List.append_assoc]
  by_cases h1 : v = 1
  · subst h1
    rw [matchSlotName, hshape, stripLead_append]
    simp [slotLabel, stripLead_self]
  · have hlab : slotLabel v = prevStr ++ natDigits (v - 1) := by
      simp [slotLabel, h1]
    have hlat : stripLead (latestStr ++ extStr)
        ((prevStr ++ natDigits (v - 1)) ++ extStr) = none := by
      simp [latestStr, prevStr, stripLead]
    have hprev : stripLead prevStr ((prevStr ++ natDigits (v - 1)) ++ extStr)
        = some (natDigits (v - 1) ++ extStr) := by
      rw [List.append_assoc, stripLead_append]
    rw [matchSlotName, hshape, stripLead_append, hlab]
    simp only [hlat, hprev, spanDigits_natDigits_ext]
    simp [natDigits_ne_nil, stripLead_self, digitsToNat_natDigits]
    omega

/-- The exact-name pattern also accepts every generated slot name and
recovers its index. -/
theorem exactSlotIndex_verName (pfx : List Char) (v : Nat) (h : 1 ≤ v) :
    exactSlotIndex pfx (verName pfx v) = some v := by
  have hshape : verName pfx v = (pfx ++ usStr) ++ (slotLabel v ++ extStr) := by
    simp [verName, List.append_assoc]
  by_cases h1 : v = 1
  · subst h1
    rw [exactSlotIndex, hshape, stripLead_append]
    simp [slotLabel]
  · have hlab : slotLabel v = prevStr ++ natDigits (v - 1) := by
      simp [slotLabel, h1]
    have hlat : ((prevStr ++ natDigits (v - 1)) ++ extStr ≠
        latestStr ++ extStr) := by
      simp [latestStr, prevStr]
    have hprev : stripLead prevStr ((prevStr ++ natDigits (v - 1)) ++ extStr)
        = some (natDigits (v - 1) ++ extStr) := by
      rw [List.append_assoc, stripLead_append]
    rw [exactSlotIndex, hshape, stripLead_append, hlab]
    simp only [hlat, hprev, spanDigits_natDigits_ext, if_false]
    simp [hlat, natDigits_ne_nil, digitsToNat_natDigits]
    omega

/-- Slot names determine their index: the builder is injective in the slot
index for every fixed family id. -/
theorem verName_inj (pfx : List Char) (a b : Nat) (ha : 1 ≤ a) (hb : 1 ≤ b)
    (h : verName pfx a = verName pfx b) : a = b := by
  have h1 := matchSlotName_ver pfx a ha
  have h2 := matchSlotName_ver pfx b hb
  rw [h] at h1
  rw [h1] at h2
  exact Option.some_injective _ h2

/-- Full slot paths determine their index as well. -/
theorem ver_inj (root pfx : List Char) (a b : Nat) (ha : 1 ≤ a) (hb : 1 ≤ b)
    (h : _ver root pfx a = _ver root pfx b) : a = b := by
  apply verName_inj pfx a b ha hb
  have h' : (root ++ sepStr) ++ verName pfx a = (root ++ sepStr) ++ verName pfx b := by
    simpa [_ver, List.append_assoc] using h
  exact List.append_cancel_left h'

/-! Lemmas on the allocation scan. -/

/-- A scan over indices none of which is eligible reports no slot. -/
theorem findLoop_none (slots : SlotMap) (thr : Nat → Option Nat) (now : ℤ)
    (l : List Nat) (h : ∀ v ∈ l, ¬ elig slots thr now v) :
    findLoop slots thr now l = (none, false) := by
  induction l with
  | nil => rfl
  | cons v rest ih =>
    have hv := h v (by simp)
    cases hs : slots v with
    | none => exact absurd (Or.inl hs) hv
    | some f =>
      have hcond : ¬(effThr thr v = 0 ∨ (effThr thr v : ℤ) ≤ now - f.mtime) := by
        intro hc
        rcases hc with hc | hc
        · exact hv (Or.inr (Or.inl hc))
        · exact hv (Or.inr (Or.inr ⟨f, hs, hc⟩))
      simp only [findLoop, hs]
      rw [if_neg hcond]
      exact ih fun u hu => h u (by simp [hu])

/-- The scan stops at the first eligible index, with the rotation flag set
exactly when that slot's file exists. -/
theorem findLoop_hit (slots : SlotMap) (thr : Nat → Option Nat) (now : ℤ)
    (l1 : List Nat) (v : Nat) (l2 : List Nat)
    (h1 : ∀ u ∈ l1, ¬ elig slots thr now u) (hv : elig slots thr now v) :
    findLoop slots thr now (l1 ++ v :: l2) = (some v, (slots v).isSome) := by
  induction l1 with
  | nil =>
    simp only [List.nil_append]
    cases hs : slots v with
    | none => simp [findLoop, hs]
    | some f =>
      have hcond : effThr thr v = 0 ∨ (effThr thr v : ℤ) ≤ now - f.mtime := by
        rcases hv with hc | hc | ⟨f', hf', hc⟩
        · rw [hs] at hc
          exact absurd hc (by simp)
        · exact Or.inl hc
        · rw [hs] at hf'
          obtain rfl : f = f' := Option.some_injective _ hf'
          exact Or.inr hc
      simp only [findLoop, hs]
      rw [if_pos hcond]
      simp [hs]
  | cons u rest ih =>
    have hu := h1 u (by simp)
    cases hs : slots u with
    | none => exact absurd (Or.inl hs) hu
    | some f =>
      have hcond : ¬(effThr thr u = 0 ∨ (effThr thr u : ℤ) ≤ now - f.mtime) := by
        intro hc
        rcases hc with hc | hc
        · exact hu (Or.inr (Or.inl hc))
        · exact hu (Or.inr (Or.inr ⟨f, hs, hc⟩))
      simp only [List.cons_append, findLoop, hs]
      rw [if_neg hcond]
      exact ih fun w hw => h1 w (by simp [hw])

/-- Any index the scan returns was on the list and eligible. -/
theorem findLoop_sound (slots : SlotMap) (thr : Nat → Option Nat) (now : ℤ)
    (l : List Nat) (v : Nat) (b : Bool)
    (h : findLoop slots thr now l = (some v, b)) :
    v ∈ l ∧ elig slots thr now v := by
  induction l with
  | nil => simp [findLoop] at h
  | cons u rest ih =>
    cases hs : slots u with
    | none =>
      simp only [findLoop, hs] at h
      obtain ⟨rfl, -⟩ : u = v ∧ False = b := by
        simpa using h
      exact ⟨by simp, Or.inl hs⟩
    | some f =>
      by_cases hcond : effThr thr u = 0 ∨ (effThr thr u : ℤ) ≤ now - f.mtime
      · simp only [findLoop, hs] at h
        rw [if_pos hcond] at h
        have huv : u = v := by
          have hfst := congrArg Prod.fst h
          simpa using hfst
        subst huv
        rcases hcond with hc | hc
        · exact ⟨by simp, Or.inr (Or.inl hc)⟩
        · exact ⟨by simp, Or.inr (Or.inr ⟨f, hs, hc⟩)⟩
      · simp only [findLoop, hs] at h
        rw [if_neg hcond] at h
        obtain ⟨hm, he⟩ := ih h
        exact ⟨by simp [hm], he⟩

/-- Membership in the scanned index range. -/
theorem mem_scanSlots (max_v u : Nat) :
    u ∈ scanSlots max_v ↔ 2 ≤ u ∧ u ≤ max_v := by
  simp only [scanSlots, List.mem_range'_1]
  omega

/-- Splitting the scanned range at an interior index. -/
theorem scanSlots_split (max_v v : Nat) (h2 : 2 ≤ v) (hle : v ≤ max_v) :
    scanSlots max_v =
      List.range' 2 (v - 2) ++ v :: List.range' (v + 1) (max_v - v) := by
  have e1 : max_v - 1 = ((max_v - v) + 1) + (v - 2) := by omega
  have e2 : 2 + (v - 2) = v := by omega
  rw [scanSlots, e1, ← List.range'_append_1, e2, List.range'_succ]

/-- C1: `_find_slot` scans historical slots in increasing order from 2 and
stops at the first slot that is missing (no rotation) or whose threshold is 0
or reached (rotation needed); it reports no slot when no index of
`2..MaxSlots` qualifies; in particular an all-empty state yields slot 2
without rotation, and a state whose slots are all occupied and strictly
within positive thresholds yields no slot. -/
theorem find_slot_first_fit (slots : SlotMap) (max_v : Nat)
    (thr : Nat → Option Nat) (now : ℤ) :
    (∀ v, 2 ≤ v → v ≤ max_v →
      (∀ u, 2 ≤ u → u < v → ¬ elig slots thr now u) →
      (slots v = none → _find_slot slots max_v thr now = (some v, false)) ∧
      (∀ f, slots v = some f →
        (effThr thr v = 0 ∨ (effThr thr v : ℤ) ≤ now - f.mtime) →
        _find_slot slots max_v thr now = (some v, true))) ∧
    ((∀ v, 2 ≤ v → v ≤ max_v → ¬ elig slots thr now v) →
      _find_slot slots max_v thr now = (none, false)) ∧
    ((∀ v, slots v = none) → 2 ≤ max_v →
      _find_slot slots max_v thr now = (some 2, false)) ∧
    ((∀ v, 2 ≤ v → v ≤ max_v → ∃ f, slots v = some f ∧ 0 < effThr thr v ∧
        now - f.mtime < (effThr thr v : ℤ)) →
      _find_slot slots max_v thr now = (none, false)) := by
  have hfirst : ∀ v, 2 ≤ v → v ≤ max_v →
      (∀ u, 2 ≤ u → u < v → ¬ elig slots thr now u) → elig slots thr now v →
      _find_slot slots max_v thr now = (some v, (slots v).isSome) := by
    intro v h2 hle hmin hv
    rw [_find_slot, scanSlots_split max_v v h2 hle]
    refine findLoop_hit slots thr now _ v _ ?_ hv
    intro u hu
    rw [List.mem_range'_1] at hu
    exact hmin u hu.1 (by omega)
  have hnone : (∀ v, 2 ≤ v → v ≤ max_v → ¬ elig slots thr now v) →
      _find_slot slots max_v thr now = (none, false) := by
    intro hall
    rw [_find_slot]
    refine findLoop_none slots thr now _ ?_
    intro u hu
    rw [mem_scanSlots] at hu
    exact hall u hu.1 hu.2
  refine ⟨?_, hnone, ?_, ?_⟩
  · intro v h2 hle hmin
    constructor
    · intro hmiss
      have h := hfirst v h2 hle hmin (Or.inl hmiss)
      simpa [hmiss] using h
    · intro f hf hcond
      have hv : elig slots thr now v := by
        rcases hcond with hc | hc
        · exact Or.inr (Or.inl hc)
        · exact Or.inr (Or.inr ⟨f, hf, hc⟩)
      have h := hfirst v h2 hle hmin hv
      simpa [hf] using h
  · intro hempty hmax
    have h := hfirst 2 (by omega) hmax
      (fun u hu1 hu2 => absurd hu2 (by omega)) (Or.inl (hempty 2))
    simpa [hempty 2] using h
  · intro hfresh
    refine hnone ?_
    intro v h2 hle he
    obtain ⟨f, hf, hpos, hlt⟩ := hfresh v h2 hle
    rcases he with hc | hc | ⟨f', hf', hge⟩
    · rw [hf] at hc
      exact Option.noConfusion hc
    · omega
    · rw [hf] at hf'
      obtain rfl : f = f' := Option.some_injective _ hf'
      exact absurd hge (not_le.mpr hlt)

/-- Concrete instance of the first-fit theorem: an all-empty state with
`MaxSlots = 3` selects slot 2 with no rotation. -/
theorem find_slot_first_fit_witness :
    _find_slot slotsEmpty 3 thrEmpty 0 = (some 2, false) :=
  (find_slot_first_fit slotsEmpty 3 thrEmpty 0).2.2.1 (fun _ => rfl) (by omega)

/-! Lemmas on the rotation loop. -/

/-- Peeling the lowest index off the descending rotation block: the loop
processes all higher indices first, then the start index. -/
theorem rotFold_succ (g : SlotMap) (start n : Nat) :
    rotFold g start (n + 1) = moveStep (rotFold g (start + 1) n) start := by
  rw [rotFold, List.range'_succ, List.reverse_cons, List.foldl_append]
  rfl

/-- Behaviour of the rotation loop over the block `start..start+n-1`:
indices outside the block (and below its start) are untouched, every interior
target `j + 1` receives the block's previous occupant of `j`, the top target
`start + n` receives the occupant of `start + n - 1` when that exists, and the
start slot ends vacated. -/
theorem rotFold_spec (g : SlotMap) (n : Nat) : ∀ start : Nat,
    (∀ k, k < start → rotFold g start n k = g k) ∧
    (∀ k, start + n < k → rotFold g start n k = g k) ∧
    (∀ j, start ≤ j → j + 1 < start + n → rotFold g start n (j + 1) = g j) ∧
    (1 ≤ n → rotFold g start n (start + n) =
      (if (g (start + n - 1)).isSome then g (start + n - 1)
       else g (start + n))) ∧
    (1 ≤ n → rotFold g start n start = none) := by
  induction n with
  | zero =>
    intro start
    exact ⟨fun k _ => rfl, fun k _ => rfl,
      fun j _ h2 => absurd h2 (by omega),
      fun hn => absurd hn (by omega), fun hn => absurd hn (by omega)⟩
  | succ n ih =>
    intro start
    obtain ⟨ih1, ih2, ih3, ih4, ih5⟩ := ih (start + 1)
    have hGstart : rotFold g (start + 1) n start = g start :=
      ih1 start (by omega)
    rw [rotFold_succ]
    cases hgs : g start with
    | none =>
      have hms : moveStep (rotFold g (start + 1) n) start =
          rotFold g (start + 1) n := by
        rw [moveStep, hGstart, hgs]
      rw [hms]
      refine ⟨?_, ?_, ?_, ?_, ?_⟩
      · intro k hk
        exact ih1 k (by omega)
      · intro k hk
        exact ih2 k (by omega)
      · intro j hj1 hj2
        by_cases hj : j = start
        · subst hj
          have hn : 1 ≤ n := by omega
          rw [ih5 hn, hgs]
        · exact ih3 j (by omega) (by omega)
      · intro _
        by_cases hn : 1 ≤ n
        · have h4 := ih4 hn
          have e1 : start + (n + 1) = start + 1 + n := by omega
          rw [e1, h4]
        · have hn0 : n = 0 := by omega
          subst hn0
          have e1 : start + (0 + 1) = start + 1 := by omega
          have e2 : start + (0 + 1) - 1 = start := by omega
          rw [e1, e2, hgs]
          simp [rotFold]
      · intro _
        rw [hGstart, hgs]
    | some c =>
      have hms : ∀ k, moveStep (rotFold g (start + 1) n) start k =
          (if k = start + 1 then some c
           else if k = start then none else rotFold g (start + 1) n k) := by
        intro k
        simp only [moveStep, hGstart, hgs]
      refine ⟨?_, ?_, ?_, ?_, ?_⟩
      · intro k hk
        rw [hms k, if_neg (by omega : ¬k = start + 1),
          if_neg (by omega : ¬k = start)]
        exact ih1 k (by omega)
      · intro k hk
        rw [hms k, if_neg (by omega : ¬k = start + 1),
          if_neg (by omega : ¬k = start)]
        exact ih2 k (by omega)
      · intro j hj1 hj2
        by_cases hj : j = start
        · subst hj
          rw [hms (j + 1), if_pos rfl, hgs]
        · rw [hms (j + 1), if_neg (by omega : ¬j + 1 = start + 1),
            if_neg (by omega : ¬j + 1 = start)]
          exact ih3 j (by omega) (by omega)
      · intro _
        by_cases hn : 1 ≤ n
        · rw [hms (start + (n + 1)),
            if_neg (by omega : ¬start + (n + 1) = start + 1),
            if_neg (by omega : ¬start + (n + 1) = start)]
          have e1 : start + (n + 1) = start + 1 + n := by omega
          rw [e1, ih4 hn]
        · have hn0 : n = 0 := by omega
          subst hn0
          have e1 : start + (0 + 1) = start + 1 := by omega
          have e2 : start + (0 + 1) - 1 = start := by omega
          rw [e1, e2, hms (start + 1), if_pos rfl, hgs]
          simp
      · intro _
        rw [hms start, if_neg (by omega : ¬start = start + 1), if_pos rfl]


/-- The conditional overflow removal equals an unconditional clear. -/
theorem rotInit_eq (fs : SlotMap) (m : Nat) :
    (if (fs m).isSome then clearSlot fs m else fs) = clearSlot fs m := by
  by_cases h : (fs m).isSome
  · rw [if_pos h]
  · rw [if_neg h]
    funext k
    by_cases hk : k = m
    · subst hk
      simp only [clearSlot, if_pos rfl]
      exact Option.not_isSome_iff_eq_none.mp h
    · simp [clearSlot, hk]

/-- `_rotate` is the rotation loop applied after clearing the overflow. -/
theorem rotate_eq_rotFold (fs : SlotMap) (max_v start : Nat) :
    _rotate fs max_v start =
      rotFold (clearSlot fs max_v) start (max_v - start) := by
  rw [_rotate]
  rw [show (if (fs max_v).isSome then clearSlot fs max_v else fs) =
    clearSlot fs max_v from rotInit_eq fs max_v]
  rfl

/-- Clearing one slot leaves the others unchanged. -/
theorem clearSlot_apply_ne (fs : SlotMap) (m k : Nat) (h : k ≠ m) :
    clearSlot fs m k = fs k := by
  show (if k = m then none else fs k) = fs k
  rw [if_neg h]

/-- The cleared slot is empty. -/
theorem clearSlot_apply_self (fs : SlotMap) (m : Nat) :
    clearSlot fs m m = none := by
  show (if m = m then none else fs m) = none
  rw [if_pos rfl]

/-- C3: for a start slot at or below MaxSlots, `_rotate` evicts the overflow
occupant, then shifts every occupied slot of `start..MaxSlots-1` intact one
index higher in strictly descending order (missing slots are skipped, and a
skipped source leaves the vacated target empty); slots below the start and
above MaxSlots are untouched, and the start slot itself ends vacated, so no
slot file other than the overflow occupant is lost. -/
theorem rotate_shifts_and_preserves (fs : SlotMap) (max_v start : Nat)
    (h : start ≤ max_v) :
    (∀ k, start ≤ k → k < max_v → _rotate fs max_v start (k + 1) = fs k) ∧
    (∀ k, k < start → _rotate fs max_v start k = fs k) ∧
    (∀ k, max_v < k → _rotate fs max_v start k = fs k) ∧
    _rotate fs max_v start start = none := by
  obtain ⟨s1, s2, s3, s4, s5⟩ := rotFold_spec (clearSlot fs max_v) (max_v - start) start
  have hsum : start + (max_v - start) = max_v := by omega
  rw [hsum] at s2 s3 s4
  refine ⟨?_, ?_, ?_, ?_⟩
  · intro k hk1 hk2
    rw [rotate_eq_rotFold]
    by_cases htop : k + 1 = max_v
    · have hn : 1 ≤ max_v - start := by omega
      have h4 := s4 hn
      have e : max_v - 1 = k := by omega
      rw [htop, h4, e, clearSlot_apply_ne fs max_v k (by omega)]
      cases hc : fs k with
      | none =>
        simp [hc, clearSlot_apply_self]
      | some c =>
        simp [hc]
    · have h3 := s3 k hk1 (by omega)
      rw [h3, clearSlot_apply_ne fs max_v k (by omega)]
  · intro k hk
    rw [rotate_eq_rotFold, s1 k hk, clearSlot_apply_ne fs max_v k (by omega)]
  · intro k hk
    rw [rotate_eq_rotFold, s2 k (by omega),
      clearSlot_apply_ne fs max_v k (by omega)]
  · rw [rotate_eq_rotFold]
    by_cases hn : 1 ≤ max_v - start
    · exact s5 hn
    · have h0 : max_v - start = 0 := by omega
      rw [h0]
      show clearSlot fs max_v start = none
      rw [(by omega : start = max_v)]
      exact clearSlot_apply_self fs max_v

/-- Concrete instance of the rotation theorem: with slots 2 and 3 occupied and
`MaxSlots = 3`, rotation from slot 2 moves slot 2's file into slot 3. -/
theorem rotate_shifts_witness :
    (2 : Nat) ≤ 3 ∧ _rotate slotsEx 3 2 3 = slotsEx 2 :=
  ⟨by decide, (rotate_shifts_and_preserves slotsEx 3 2 (by decide)).1 2
    (by decide) (by decide)⟩

/-! Threshold-table lemmas. -/

/-- C4: the effective threshold table (lookup with default 0) maps slot 1 to
0; slots 2..5, when within MaxSlots, to the corresponding configured minutes
times 60; every slot above 5 within MaxSlots to
`lastConfigured * (1 + (v - 5)) * 60` when the last configured value is
positive; and when the last configured value is 0, every slot beyond the
configured set to 0. Every non-negative configuration yields a total table. -/
theorem thresholds_table_spec (p : Prefs) (max_v : Nat) :
    effThr (_thresholds p max_v) 1 = 0 ∧
    (2 ≤ max_v → effThr (_thresholds p max_v) 2 = p.prev1 * 60) ∧
    (3 ≤ max_v → effThr (_thresholds p max_v) 3 = p.prev2 * 60) ∧
    (4 ≤ max_v → effThr (_thresholds p max_v) 4 = p.prev3 * 60) ∧
    (5 ≤ max_v → effThr (_thresholds p max_v) 5 = p.prev4 * 60) ∧
    (∀ v, 5 < v → v ≤ max_v → 0 < p.prev4 →
      effThr (_thresholds p max_v) v = p.prev4 * (1 + (v - 5)) * 60) ∧
    (∀ v, 5 < v → p.prev4 = 0 → effThr (_thresholds p max_v) v = 0) := by
  refine ⟨?_, ?_, ?_, ?_, ?_, ?_, ?_⟩
  · by_cases h : 1 ≤ max_v
    · simp [effThr, _thresholds, baseVals, h]
    · have hc2 : ¬(0 < p.prev4 ∧ 6 ≤ 1 ∧ 1 ≤ max_v) := by omega
      simp [effThr, _thresholds, hc2, h]
  · intro h
    simp [effThr, _thresholds, baseVals, h]
  · intro h
    simp [effThr, _thresholds, baseVals, h]
  · intro h
    simp [effThr, _thresholds, baseVals, h]
  · intro h
    simp [effThr, _thresholds, baseVals, h]
  · intro v h5 hle hpos
    have he : p.prev4 + p.prev4 * (v - 5) = p.prev4 * (1 + (v - 5)) := by ring
    have h5' : ¬v ≤ 5 := by omega
    have hc2 : 0 < p.prev4 ∧ 6 ≤ v ∧ v ≤ max_v := ⟨hpos, by omega, hle⟩
    simp [effThr, _thresholds, h5', hc2, he]
  · intro v h5 hz
    have h5' : ¬v ≤ 5 := by omega
    simp [effThr, _thresholds, h5', hz]

/-- Concrete instance of the threshold theorem: with the example preferences
(`prev4 = 1` minute) and `MaxSlots = 7`, slot 7 gets `1 * (1 + 2) * 60`
seconds. -/
theorem thresholds_table_spec_witness :
    (5 : Nat) < 7 ∧
    effThr (_thresholds prefsEx 7) 7 = prefsEx.prev4 * (1 + (7 - 5)) * 60 :=
  ⟨by decide, (thresholds_table_spec prefsEx 7).2.2.2.2.2.1 7 (by decide)
    (by decide) (by decide)⟩

/-- The two variants' tables agree through `dict.get(v, 0)` on `1..MaxSlots`. -/
theorem effThr_red_eq (p : Prefs) (max_v v : Nat) (h1 : 1 ≤ v)
    (h2 : v ≤ max_v) :
    effThr (thresholds_red p max_v) v = effThr (_thresholds p max_v) v := by
  by_cases h5 : v ≤ 5
  · simp [effThr, thresholds_red, _thresholds, h1, h2, h5]
  · simp [effThr, thresholds_red, _thresholds, h1, h2, h5]

/-- The scan result depends on the table only through the effective
thresholds of the scanned indices. -/
theorem findLoop_congr (slots : SlotMap) (t1 t2 : Nat → Option Nat) (now : ℤ)
    (l : List Nat) (h : ∀ v ∈ l, effThr t1 v = effThr t2 v) :
    findLoop slots t1 now l = findLoop slots t2 now l := by
  induction l with
  | nil => rfl
  | cons v rest ih =>
    have hv := h v (by simp)
    cases hs : slots v with
    | none => simp [findLoop, hs]
    | some f =>
      simp only [findLoop, hs, hv]
      by_cases hc : effThr t2 v = 0 ∨ (effThr t2 v : ℤ) ≤ now - f.mtime
      · rw [if_pos hc, if_pos hc]
      · rw [if_neg hc, if_neg hc]
        exact ih fun u hu => h u (by simp [hu])

/-- C9: the two scripts' cores are extensionally equal: the slot-path naming,
the effective thresholds on slots 1..MaxSlots, the allocation decision (both
as a function of the table and composed with each file's own table), and the
rotation effect all coincide. -/
theorem variants_core_equal :
    (∀ root pfx v, ver_red root pfx v = _ver root pfx v) ∧
    (∀ p max_v v, 1 ≤ v → v ≤ max_v →
      effThr (thresholds_red p max_v) v = effThr (_thresholds p max_v) v) ∧
    (∀ slots max_v thr now,
      find_slot_red slots max_v thr now = _find_slot slots max_v thr now) ∧
    (∀ slots p max_v now,
      find_slot_red slots max_v (thresholds_red p max_v) now =
        _find_slot slots max_v (_thresholds p max_v) now) ∧
    (∀ fs max_v start, rotate_red fs max_v start = _rotate fs max_v start) := by
  refine ⟨fun _ _ _ => rfl, effThr_red_eq, fun _ _ _ _ => rfl, ?_,
    fun _ _ _ => rfl⟩
  intro slots p max_v now
  rw [find_slot_red, _find_slot]
  refine findLoop_congr slots _ _ now _ ?_
  intro v hv
  rw [mem_scanSlots] at hv
  exact effThr_red_eq p max_v v (by omega) hv.2

/-- Concrete instance of the equivalence theorem: both tables give slot 2 of a
5-slot configuration the same effective threshold. -/
theorem variants_core_equal_witness :
    (1 : Nat) ≤ 2 ∧
    effThr (thresholds_red prefsEx 5) 2 = effThr (_thresholds prefsEx 5) 2 :=
  ⟨by decide, variants_core_equal.2.1 prefsEx 5 2 (by decide) (by decide)⟩

/-! Protected slots and the event handler. -/

/-- C2 (amended): a historical slot that exists, has a positive effective
threshold and is younger than it is never selected by the allocator and never
receives a copy of the event; rotation triggered by a lower selected slot may
still shift or evict its file, which is why the stronger reading fails. -/
theorem protected_slot_not_selected (root pfx : List Char) (inp : EventInput)
    (s : Nat) (f : SlotFile) (h2 : 2 ≤ s) (hle : s ≤ inp.max_v)
    (hf : inp.slots s = some f)
    (hpos : 0 < effThr (_thresholds inp.prefs inp.max_v) s)
    (hage : inp.now - f.mtime <
      (effThr (_thresholds inp.prefs inp.max_v) s : ℤ)) :
    (∀ b, _find_slot inp.slots inp.max_v (_thresholds inp.prefs inp.max_v)
      inp.now ≠ (some s, b)) ∧
    _ver root pfx s ∉ (save_versions_post_core root pfx inp).copies := by
  have hnelig : ¬elig inp.slots (_thresholds inp.prefs inp.max_v) inp.now s := by
    intro he
    rcases he with hc | hc | ⟨f', hf', hge⟩
    · rw [hf] at hc
      exact Option.noConfusion hc
    · omega
    · rw [hf] at hf'
      obtain rfl : f = f' := Option.some_injective _ hf'
      exact absurd hge (not_le.mpr hage)
  constructor
  · intro b hb
    obtain ⟨-, he⟩ := findLoop_sound _ _ _ _ s b hb
    exact hnelig he
  · cases hfind : _find_slot inp.slots inp.max_v
      (_thresholds inp.prefs inp.max_v) inp.now with
    | mk slotRes need_rot =>
      cases slotRes with
      | some v =>
        obtain ⟨hm, -⟩ := findLoop_sound _ _ _ _ v need_rot hfind
        rw [mem_scanSlots] at hm
        have hvs : v ≠ s := by
          intro hvv
          subst hvv
          obtain ⟨-, he⟩ := findLoop_sound _ _ _ _ v need_rot hfind
          exact hnelig he
        have hcopies : (save_versions_post_core root pfx inp).copies =
            [_ver root pfx v, _ver root pfx 1] := by
          simp only [save_versions_post_core, hfind]
        rw [hcopies]
        intro hmem
        rcases (by simpa using hmem :
            _ver root pfx s = _ver root pfx v ∨
            _ver root pfx s = _ver root pfx 1) with hq | hq
        · exact hvs (ver_inj root pfx s v (by omega) (by omega) hq).symm
        · have := ver_inj root pfx s 1 (by omega) (by omega) hq
          omega
      | none =>
        have hcopies : (save_versions_post_core root pfx inp).copies =
            [_ver root pfx 1] := by
          simp only [save_versions_post_core, hfind]
        rw [hcopies]
        intro hmem
        have hq : _ver root pfx s = _ver root pfx 1 := by simpa using hmem
        have := ver_inj root pfx s 1 (by omega) (by omega) hq
        omega

/-- Concrete instance of the protected-slot theorem at the example event:
slot 3 is protected, so the allocator never returns it and no copy targets it. -/
theorem protected_slot_not_selected_witness :
    (∀ b, _find_slot inpEx.slots inpEx.max_v
      (_thresholds inpEx.prefs inpEx.max_v) inpEx.now ≠ (some 3, b)) ∧
    _ver rootEx pfxEx 3 ∉ (save_versions_post_core rootEx pfxEx inpEx).copies :=
  protected_slot_not_selected rootEx pfxEx inpEx 3 fileB (by decide) (by decide)
    (by decide) (by decide) (by decide)

/-- Refutation of C2 as stated: in the example event, slot 3 exists, its
threshold is positive and its age is below it, yet the event's rotation step
replaces its file (slot 2's old file lands there after the overflow
eviction). -/
theorem protected_slot_overwritten_by_rotation :
    inpEx.slots 3 = some fileB ∧
    0 < effThr (_thresholds inpEx.prefs inpEx.max_v) 3 ∧
    inpEx.now - fileB.mtime <
      (effThr (_thresholds inpEx.prefs inpEx.max_v) 3 : ℤ) ∧
    (save_versions_post_core rootEx pfxEx inpEx).slotsAfter 3 = some fileA ∧
    (save_versions_post_core rootEx pfxEx inpEx).slotsAfter 3 ≠
      inpEx.slots 3 := by decide

/-- C5: whenever the handler is past its early returns (file path set and
transient backup present), a copy into slot 1 is always among the issued
copies, whatever the slot state, thresholds and allocation outcome. -/
theorem slot1_copy_unconditional (fpSet srcBak : Bool) (root pfx : List Char)
    (inp : EventInput) (h1 : fpSet = true) (h2 : srcBak = true) :
    ∃ out, save_versions_post fpSet srcBak root pfx inp = some out ∧
      _ver root pfx 1 ∈ out.copies := by
  subst h1
  subst h2
  refine ⟨save_versions_post_core root pfx inp,
    by simp [save_versions_post], ?_⟩
  cases hfind : _find_slot inp.slots inp.max_v
      (_thresholds inp.prefs inp.max_v) inp.now with
  | mk slotRes need_rot =>
    cases slotRes with
    | some v => simp [save_versions_post_core, hfind]
    | none => simp [save_versions_post_core, hfind]

/-- Concrete instance of the slot-1 theorem at the example event. -/
theorem slot1_copy_unconditional_witness :
    ∃ out, save_versions_post true true rootEx pfxEx inpEx = some out ∧
      _ver rootEx pfxEx 1 ∈ out.copies :=
  slot1_copy_unconditional true true rootEx pfxEx inpEx rfl rfl

/-! Retention purge. -/

/-- A name rejected by the exact pattern is no slot name of the family. -/
theorem exactSlotIndex_none_not_ver (pfx f : List Char)
    (h : exactSlotIndex pfx f = none) :
    ∀ v, 1 ≤ v → f ≠ verName pfx v := by
  intro v hv heq
  rw [heq, exactSlotIndex_verName pfx v hv] at h
  exact Option.noConfusion h

/-- C6 (amended): the handler's purge step filters the listing with the
pattern test; afterwards no generated slot name with index above MaxSlots
remains and no surviving entry parses to an index above MaxSlots (assuming
removals succeed), and any entry whose name does not even
begin with the family's slot-name pattern survives untouched. An entry that
merely extends a slot name (accepted by the unanchored `re.match`) may be
removed, which is why the exact-convention reading fails. -/
theorem purge_overflow_spec (root pfx : List Char) (inp : EventInput)
    (files : List (List Char)) (max_v : Nat) :
    (save_versions_post_core root pfx inp).listingAfter =
      purge pfx inp.max_v inp.listing ∧
    (∀ v, 1 ≤ v → max_v < v → verName pfx v ∉ purge pfx max_v files) ∧
    (∀ f, f ∈ files → matchSlotName pfx f = none →
      f ∈ purge pfx max_v files) ∧
    (∀ f idx, f ∈ purge pfx max_v files → matchSlotName pfx f = some idx →
      idx ≤ max_v) := by
  refine ⟨?_, ?_, ?_, ?_⟩
  · cases hfind : _find_slot inp.slots inp.max_v
      (_thresholds inp.prefs inp.max_v) inp.now with
    | mk slotRes need_rot =>
      cases slotRes with
      | some v => simp [save_versions_post_core, hfind]
      | none => simp [save_versions_post_core, hfind]
  · intro v h1 hgt hmem
    obtain ⟨-, hkeep⟩ := List.mem_filter.mp hmem
    rw [purgeKeep, matchSlotName_ver pfx v h1] at hkeep
    simp at hkeep
    omega
  · intro f hf hnone
    refine List.mem_filter.mpr ⟨hf, ?_⟩
    rw [purgeKeep, hnone]
  · intro f idx hmem hidx
    obtain ⟨-, hkeep⟩ := List.mem_filter.mp hmem
    rw [purgeKeep, hidx] at hkeep
    simp at hkeep
    omega

/-- Concrete instance of the purge theorem: with `MaxSlots = 1` the slot-2
name is removed from a listing containing it. -/
theorem purge_overflow_spec_witness :
    (1 : Nat) ≤ 2 ∧ verName pfxEx 2 ∉ purge pfxEx 1 [verName pfxEx 2] :=
  ⟨by decide, (purge_overflow_spec rootEx pfxEx inpEx [verName pfxEx 2] 1).2.1
    2 (by decide) (by decide)⟩

/-- Refutation of C6 as stated: `p_prev1.blendX` is not a slot name of family
`p` (the exact pattern rejects it), yet the unanchored pattern accepts it with
index 2, and the purge with `MaxSlots = 1` removes it. -/
theorem purge_touches_nonslot_file :
    exactSlotIndex pfxEx badName = none ∧
    matchSlotName pfxEx badName = some 2 ∧
    purge pfxEx 1 [badName] = [] := by decide

/-! Round trip of the purge pattern over the slot-path builder. -/

/-- C10: on the base name of `_ver(root, prefix, v)` the purge loop's pattern
match succeeds and its index computation recovers exactly `v`, for every
family id and every slot index at least 1. -/
theorem slot_name_round_trip (root pfx : List Char) (v : Nat) (h : 1 ≤ v) :
    _ver root pfx v = root ++ sepStr ++ verName pfx v ∧
    matchSlotName pfx (verName pfx v) = some v :=
  ⟨rfl, matchSlotName_ver pfx v h⟩

/-- Concrete instance of the round trip at slot 12 of family `p`:
the name `p_prev11.blend` parses back to index 12. -/
theorem slot_name_round_trip_witness :
    (1 : Nat) ≤ 12 ∧ matchSlotName pfxEx (verName pfxEx 12) = some 12 :=
  ⟨by decide, (slot_name_round_trip rootEx pfxEx 12 (by decide)).2⟩

/-! Failure propagation on the synchronous path. -/

/-- With no mtime failure on the scanned indices, the instrumented scan
returns the pure scan's result. -/
theorem findLoopExc_ok (slots : SlotMap) (thr : Nat → Option Nat) (now : ℤ)
    (mf : Nat → Bool) (l : List Nat) (h : ∀ v ∈ l, mf v = false) :
    findLoopExc slots thr now mf l = .ok (findLoop slots thr now l) := by
  induction l with
  | nil => rfl
  | cons v rest ih =>
    cases hs : slots v with
    | none => simp [findLoopExc, findLoop, hs]
    | some f =>
      by_cases h0 : effThr thr v = 0
      · simp [findLoopExc, findLoop, hs, h0]
      · have hmf := h v (by simp)
        by_cases hcmp : (effThr thr v : ℤ) ≤ now - f.mtime
        · simp [findLoopExc, findLoop, hs, h0, hmf, hcmp]
        · simp only [findLoopExc, findLoop, hs, h0, hmf, hcmp]
          simp only [Bool.false_eq_true, if_false, ite_false]
          rw [if_neg (by tauto)]
          exact ih fun u hu => h u (by simp [hu])

/-- With no move failure, the instrumented rotation loop matches the pure
loop. -/
theorem foldRotExc_ok (fail : Nat → Bool) (l : List Nat) (fs : SlotMap)
    (h : ∀ v ∈ l, fail v = false) :
    l.foldl (moveStepExc fail) (.ok fs) = .ok (l.foldl moveStep fs) := by
  induction l generalizing fs with
  | nil => rfl
  | cons v rest ih =>
    have hv := h v (by simp)
    rw [List.foldl_cons, List.foldl_cons]
    have hstep : moveStepExc fail (Except.ok fs) v = Except.ok (moveStep fs v) := by
      cases hs : fs v with
      | none => simp [moveStepExc, moveStep, hs]
      | some c => simp [moveStepExc, moveStep, hs, hv]
    rw [hstep]
    exact ih (moveStep fs v) fun u hu => h u (by simp [hu])

/-- With no remove or move failure, the instrumented rotation returns the pure
rotation's state. -/
theorem rotateExc_ok (fl : FailSpec) (fs : SlotMap) (max_v start : Nat)
    (h1 : fl.rotRemoveFail = false) (h2 : ∀ v, fl.rotMoveFail v = false) :
    rotateExc fl fs max_v start = .ok (_rotate fs max_v start) := by
  rw [rotateExc]
  by_cases hs : (fs max_v).isSome
  · rw [if_pos hs, h1]
    simp only [Bool.false_eq_true, if_false, ite_false]
    rw [foldRotExc_ok fl.rotMoveFail _ _ fun v _ => h2 v]
    rw [rotate_eq_rotFold]
    rfl
  · rw [if_neg hs]
    rw [foldRotExc_ok fl.rotMoveFail _ _ fun v _ => h2 v]
    have hcl : clearSlot fs max_v = fs := by
      funext k
      by_cases hk : k = max_v
      · subst hk
        rw [clearSlot_apply_self]
        exact (Option.not_isSome_iff_eq_none.mp hs).symm
      · exact clearSlot_apply_ne fs max_v k hk
    rw [rotate_eq_rotFold, hcl]
    rfl

/-- C7 (amended): the synchronous handler raises no exception provided
directory creation, the mtime queries, rotation's remove and moves, and the
directory listing succeed; failures of the purge's per-file removals and of
the source-backup cleanup are caught (and the asynchronous copies never raise
on this path). Failures at the unguarded sites do propagate, which is why the
unconditional reading fails. -/
theorem handler_raises_only_unguarded (fl : FailSpec) (fpSet srcBak : Bool)
    (root pfx : List Char) (inp : EventInput)
    (hmk : fl.mkdirFail = false) (hmt : ∀ v, fl.mtimeFail v = false)
    (hrr : fl.rotRemoveFail = false) (hrm : ∀ v, fl.rotMoveFail v = false)
    (hls : fl.listFail = false) :
    isOkE (save_versions_post_exc fl fpSet srcBak root pfx inp) = true := by
  rw [save_versions_post_exc]
  by_cases hfp : fpSet = false
  · rw [if_pos hfp]
    rfl
  · rw [if_neg hfp]
    by_cases hsb : srcBak = false
    · rw [if_pos hsb]
      rfl
    · rw [if_neg hsb, hmk]
      simp only [Bool.false_eq_true, if_false, ite_false]
      rw [findLoopExc_ok _ _ _ _ _ fun v _ => hmt v]
      cases hf : findLoop inp.slots (_thresholds inp.prefs inp.max_v) inp.now
          (scanSlots inp.max_v) with
      | mk slotRes nr =>
        cases slotRes with
        | some v =>
          cases nr with
          | true =>
            simp only [if_true, ite_true]
            rw [rotateExc_ok fl inp.slots inp.max_v v hrr hrm]
            rw [hls]
            rfl
          | false =>
            simp only [Bool.false_eq_true, if_false, ite_false]
            rw [hls]
            rfl
        | none =>
          rw [hls]
          rfl

/-- Concrete instance of the amended error-handling theorem: with every
guarded site failing (purge removals and source cleanup) and the unguarded
sites succeeding, the handler still completes without raising. -/
theorem handler_raises_only_unguarded_witness :
    isOkE (save_versions_post_exc failGuarded true true rootEx pfxEx inpEx)
      = true :=
  handler_raises_only_unguarded failGuarded true true rootEx pfxEx inpEx rfl
    (fun _ => rfl) rfl (fun _ => rfl) rfl

/-- Refutation of C7 as stated: when `_rotate`'s overflow `os.remove` raises
during an event that rotates (slot 2 occupied and eligible, `MaxSlots = 2`),
the synchronous handler propagates the exception to its caller. -/
theorem handler_error_on_rotation_failure :
    isOkE (save_versions_post_exc failRot true true rootEx pfxEx inpOvf)
      = false := by decide

/-! Source-backup cleanup. -/

/-- The retry chain performs at most `budget + 1` attempts, each scheduled
with the same fixed delay. -/
theorem safe_remove_sched_bounded (failAt : Nat → Bool) (delay : ℤ) (r : Nat) :
    (safe_remove_sched failAt delay r).length ≤ r + 1 ∧
    ∀ d ∈ safe_remove_sched failAt delay r, d = delay := by
  induction r with
  | zero =>
    constructor
    · rw [safe_remove_sched]
      simp
    · intro d hd
      rw [safe_remove_sched] at hd
      simpa using hd
  | succ n ih =>
    obtain ⟨ih1, ih2⟩ := ih
    rw [safe_remove_sched]
    cases h : removeOnce failAt (n + 1) with
    | ok _ =>
      constructor
      · simp
      · intro d hd
        simpa using hd
    | error e =>
      constructor
      · simp only [List.length_cons]
        omega
      · intro d hd
        rcases List.mem_cons.mp hd with hd | hd
        · exact hd
        · exact ih2 d hd

/-- C8: source-backup removal never raises: `_safe_remove` retries a bounded,
fixed number of times (at most 6 attempts with its defaults), each attempt
delayed by the fixed 2-second interval, abandoning silently after the budget;
the other variant's `try/except: pass` removal always completes normally. -/
theorem source_cleanup_bounded :
    (∀ failAt : Nat → Bool, (_safe_remove failAt).length ≤ 6 ∧
      ∀ d ∈ _safe_remove failAt, d = 2) ∧
    (∀ b, src_remove_red b = .ok ()) := by
  constructor
  · intro failAt
    have h := safe_remove_sched_bounded failAt 2 5
    exact ⟨h.1, h.2⟩
  · intro b
    cases b <;> rfl

/-- Concrete instance of the cleanup theorem: even when every attempt fails,
at most 6 attempts happen. -/
theorem source_cleanup_bounded_witness :
    (_safe_remove fun _ => true).length ≤ 6 :=
  (source_cleanup_bounded.1 fun _ => true).1
